import Mathlib

set_option autoImplicit false

/-! Shallow embedding of the change-detection core of `monitor.py`:
row canonicalization (`normalize_space`, `normalize_amount`, `canonicalize_row`),
identity keying and diffing (`detect_changes`), change formatting
(`format_change_lines`) and atomic snapshot persistence (`write_csv_atomic`),
together with proofs of the specified properties. -/

/-- A Python `Dict[str, str]` row, as an insertion-ordered association list.
Python dicts have pairwise-distinct keys; where a proof needs that invariant it
is taken as an explicit hypothesis (`WFRow`). -/
abbrev Row := List (String × String)

/-- Whitespace characters matched by Python's `\s` and removed by
`str.strip()` (ASCII range; exotic Unicode whitespace is out of scope). -/
def pyIsSpace (c : Char) : Bool :=
  c == ' ' || c == '\t' || c == '\n' || c == '\r' || c == '\x0b' || c == '\x0c'

/-- U+00A0, the non-breaking space that `normalize_space` replaces first. -/
def nbspChar : Char := '\u00A0'

/-- Model of `s.replace("\xa0", " ")`. -/
def deNbsp (l : List Char) : List Char :=
  l.map (fun c => if c == nbspChar then ' ' else c)

/-- Model of `re.sub(r"\s+", " ", s)`: replace every maximal whitespace run by
a single ASCII space.  The flag records whether the current run has already
emitted its space. -/
def collapseWS : Bool → List Char → List Char
  | _, [] => []
  | prev, c :: cs =>
    if pyIsSpace c then
      if prev then collapseWS true cs else ' ' :: collapseWS true cs
    else c :: collapseWS false cs

/-- Remove trailing whitespace (the right half of `str.strip()`). -/
def dropTrail : List Char → List Char
  | [] => []
  | c :: cs =>
    let r := dropTrail cs
    if r.isEmpty && pyIsSpace c then [] else c :: r

/-- Model of `str.strip()`. -/
def pyStrip (l : List Char) : List Char :=
  dropTrail (l.dropWhile pyIsSpace)

/-- `normalize_space` from `monitor.py`: replace NBSP by a space, collapse
whitespace runs to single spaces, and strip the ends. -/
def normalize_space (s : String) : String :=
  ⟨pyStrip (collapseWS false (deNbsp s.data))⟩

/-- The characters kept by `re.sub(r"[^\d.]", "", s)`. -/
def isDigDot (c : Char) : Bool := c.isDigit || c == '.'

/-- Character membership, `c in s`. -/
def hasChar (c : Char) : List Char → Bool
  | [] => false
  | a :: as => a == c || hasChar c as

/-- `s.startswith(x)` for a single character. -/
def headIs (x : Char) : List Char → Bool
  | [] => false
  | c :: _ => c == x

/-- `s.endswith(x)` for a single character. -/
def lastIs (x : Char) (l : List Char) : Bool :=
  match l.getLast? with
  | some c => c == x
  | none => false

/-- `normalize_amount` from `monitor.py`. -/
def normalize_amount (s : String) : String :=
  let t := pyStrip s.data
  let neg := headIs '-' t || (hasChar '(' t && hasChar ')' t)
  let digits := t.filter isDigDot
  if digits = [] then "0"
  else if neg then ⟨'-' :: digits⟩ else ⟨digits⟩

/-- `canonicalize_row` from `monitor.py`. -/
def canonicalize_row (row : Row) (amount_cols : List String := ["Amount"]) : Row :=
  row.map (fun kv =>
    let vs := normalize_space kv.2
    (kv.1, if amount_cols.contains kv.1 then normalize_amount vs else vs))

/-- `r.get(k, d)` on a Python dict modelled as an association list. -/
def pyGetD (r : Row) (k : String) (d : String) : String :=
  match r with
  | [] => d
  | p :: rest => if p.1 == k then p.2 else pyGetD rest k d

/-- `r.get(k, "")`. -/
def pyGet (r : Row) (k : String) : String := pyGetD r k ""

/-- Membership in a list of keys. -/
def keyMem (k : String) (ks : List String) : Bool :=
  ks.any (fun a => a == k)

/-- Code-point comparison of strings, as used by Python's `sorted`. -/
def strLtAux : List Char → List Char → Bool
  | [], [] => false
  | [], _ :: _ => true
  | _ :: _, [] => false
  | a :: as, b :: bs =>
    if a < b then true else if b < a then false else strLtAux as bs

/-- Strict code-point order on strings. -/
def strLt (a b : String) : Bool := strLtAux a.data b.data

/-- Insert an item into a key-sorted list of pairs. -/
def insertByKey (p : String × String) :
    List (String × String) → List (String × String)
  | [] => [p]
  | q :: rest => if strLt q.1 p.1 then q :: insertByKey p rest else p :: q :: rest

/-- Sort the items of a dict by key, as `json.dumps(..., sort_keys=True)`
does before serializing. -/
def sortByKey : List (String × String) → List (String × String)
  | [] => []
  | p :: rest => insertByKey p (sortByKey rest)

/-- One lower-case hex digit. -/
def hexDigit (n : Nat) : Char :=
  if n < 10 then Char.ofNat (48 + n) else Char.ofNat (87 + n)

/-- JSON escaping of one character, as `json.dumps` with
`ensure_ascii=False`. -/
def jsonEscapeChar (c : Char) : List Char :=
  if c == '"' then ['\\', '"']
  else if c == '\\' then ['\\', '\\']
  else if c == '\n' then ['\\', 'n']
  else if c == '\t' then ['\\', 't']
  else if c == '\r' then ['\\', 'r']
  else if c == '\x08' then ['\\', 'b']
  else if c == '\x0c' then ['\\', 'f']
  else if c.toNat < 32 then
    ['\\', 'u', '0', '0', hexDigit (c.toNat / 16), hexDigit (c.toNat % 16)]
  else [c]

/-- A JSON string literal. -/
def jsonString (s : String) : String :=
  ⟨'"' :: s.data.foldr (fun c acc => jsonEscapeChar c ++ acc) ['"']⟩

/-- `json.dumps(r, sort_keys=True, ensure_ascii=False)` on a string-valued
dict. -/
def jsonDumps (r : Row) : String :=
  "\x7b" ++ String.intercalate ", "
    ((sortByKey r).map (fun p => jsonString p.1 ++ ": " ++ jsonString p.2))
    ++ "\x7d"

/-- The inner `row_key` of `detect_changes`: the key column's value, or the
sorted-key JSON signature of the whole row when that value is empty or
absent. -/
def row_key (key_col : String) (r : Row) : String :=
  let v := pyGet r key_col
  if v = "" then jsonDumps r else v

/-- `m[k] = v` on a Python dict: overwrite in place, or append a new key. -/
def dictInsert {α : Type} (k : String) (v : α) :
    List (String × α) → List (String × α)
  | [] => [(k, v)]
  | p :: rest => if p.1 == k then (k, v) :: rest else p :: dictInsert k v rest

/-- `k in m`. -/
def containsKey {α : Type} (k : String) (m : List (String × α)) : Bool :=
  m.any (fun p => p.1 == k)

/-- `m[k]`, with a default for totality (`detect_changes` only evaluates it
under `k in m`). -/
def dictGet {α : Type} (k : String) (m : List (String × α)) (d : α) : α :=
  match m with
  | [] => d
  | p :: rest => if p.1 == k then p.2 else dictGet k rest d

/-- The comprehension `{row_key(r): r for r in rows}` (last write wins,
first-insertion position kept). -/
def buildMap (key_col : String) (rows : List Row) : List (String × Row) :=
  rows.foldl (fun m r => dictInsert (row_key key_col r) r m) []

/-- Python `==` on two string dicts: content equality, insertion order
irrelevant.  For unique-key association lists (the dict invariant) this is
equality of key-sorted forms. -/
def pyDictEq (a b : Row) : Bool := sortByKey a == sortByKey b

/-- `list.index` over rows, with Python dict equality of elements. -/
def pyIndex (x : Row) : List Row → Option Nat
  | [] => none
  | y :: ys => if pyDictEq y x then some 0 else (pyIndex x ys).map (· + 1)

/-- `detect_changes` from `monitor.py`. -/
def detect_changes (old_rows new_rows : List Row)
    (key_col : String := "Modification Number") :
    List Row × List (String × Row × Row) :=
  let old_norm := old_rows.map (fun r => canonicalize_row r)
  let new_norm := new_rows.map (fun r => canonicalize_row r)
  let old_map := buildMap key_col old_norm
  let new_map := buildMap key_col new_norm
  let new_entries :=
    (new_map.filter (fun p => !containsKey p.1 old_map)).map
      (fun p => new_rows.getD ((pyIndex p.2 new_norm).getD 0) [])
  let updated :=
    (new_map.filter (fun p =>
        containsKey p.1 old_map && !pyDictEq p.2 (dictGet p.1 old_map []))).map
      (fun p =>
        let old_n := dictGet p.1 old_map []
        (p.1, old_rows.getD ((pyIndex old_n old_norm).getD 0) [],
              new_rows.getD ((pyIndex p.2 new_norm).getD 0) []))
  (new_entries, updated)

/-- The fixed informative columns listed for a new entry in the formatter. -/
def newEntryCols : List String :=
  ["Action Date", "Amount", "Action Type", "Transaction Description"]

/-- `format_change_lines` from `monitor.py`. -/
def format_change_lines (name : String) (headers : List String)
    (new_entries : List Row)
    (updated_entries : List (String × Row × Row))
    (key_col : String := "Modification Number") : List String :=
  let newLines := new_entries.map (fun row =>
    let mod := pyGet row key_col
    let head0 := if mod = "" then "New entry" else "New entry (Mod #" ++ mod ++ ")"
    let parts := head0 :: newEntryCols.filterMap (fun col =>
      let v := pyGet row col
      if v = "" then none else some (col ++ ": " ++ v))
    " - " ++ String.intercalate " | " parts)
  let updLines := updated_entries.filterMap (fun t =>
    let old_n := canonicalize_row t.2.1
    let new_n := canonicalize_row t.2.2
    let changed_cols := headers.filter (fun col =>
      !(pyGet old_n col == pyGet new_n col))
    if changed_cols = [] then none
    else
      let hdr := "Updated (Mod #" ++ pyGetD t.2.2 key_col t.1 ++ "):"
      let details := changed_cols.map (fun col =>
        col ++ ": " ++ pyGet t.2.1 col ++ " → " ++ pyGet t.2.2 col)
      some (" - " ++ hdr ++ " " ++ String.intercalate "; " details))
  newLines ++ updLines

/-- The file system: path → file contents. -/
abbrev FS := List (String × String)

/-- Content of the file at `p`, if present. -/
def fsRead (p : String) (fs : FS) : Option String :=
  match fs with
  | [] => none
  | q :: rest => if q.1 == p then some q.2 else fsRead p rest

/-- Create, or truncate and rewrite, the file at `p`. -/
def fsWrite (p : String) (content : String) (fs : FS) : FS :=
  dictInsert p content fs

/-- Remove the file at `p`. -/
def fsErase (p : String) (fs : FS) : FS :=
  fs.filter (fun q => !(q.1 == p))

/-- `src.replace(dst)`: atomic rename of `src` over `dst`. -/
def fsRename (src dst : String) (fs : FS) : FS :=
  match fsRead src fs with
  | none => fs
  | some c => fsWrite dst c (fsErase src fs)

/-- Double the quotes inside a quoted CSV field. -/
def csvEscape : List Char → List Char
  | [] => []
  | c :: cs => if c == '"' then '"' :: '"' :: csvEscape cs else c :: csvEscape cs

/-- One CSV field, quoted when it contains a delimiter, quote or newline. -/
def csvField (s : String) : String :=
  if hasChar ',' s.data || hasChar '"' s.data || hasChar '\n' s.data
      || hasChar '\r' s.data then
    ⟨'"' :: (csvEscape s.data ++ ['"'])⟩
  else s

/-- One CSV record, with the `csv` module's default `\r\n` terminator. -/
def csvLine (fields : List String) : String :=
  String.intercalate "," (fields.map csvField) ++ "\r\n"

/-- `csv.DictWriter.writerow`: `none` when the row has a field that is not in
`fieldnames` (`DictWriter` raises `ValueError`); missing fields render as the
default `restval`, the empty string. -/
def renderRow (headers : List String) (r : Row) : Option String :=
  if r.any (fun p => !keyMem p.1 headers) then none
  else some (csvLine (headers.map (fun h => pyGet r h)))

/-- `writerows`: rows are written one at a time; the first offending row
raises, keeping what was already written to the buffered file. -/
def renderRows (headers : List String) : List Row → String × Bool
  | [] => ("", true)
  | r :: rs =>
    match renderRow headers r with
    | none => ("", false)
    | some line =>
      let rest := renderRows headers rs
      (line ++ rest.1, rest.2)

/-- `path.with_suffix(path.suffix + ".tmp")` for the `NAME.csv` paths used
here. -/
def tmpPath (p : String) : String := p ++ ".tmp"

/-- `write_csv_atomic` from `monitor.py`, as a file-system transformer.  An
uncaught `ValueError` from `DictWriter` leaves the partially written temp file
behind and never reaches the `replace`; that outcome is `Except.error`
carrying the resulting state. -/
def write_csv_atomic (path : String) (rows : List Row) (fs : FS) :
    Except FS FS :=
  if rows = [] then Except.ok fs
  else
    let headers := (rows.getD 0 []).map Prod.fst
    let body := renderRows headers rows
    let fs1 := fsWrite (tmpPath path) (csvLine headers ++ body.1) fs
    if body.2 then Except.ok (fsRename (tmpPath path) path fs1)
    else Except.error fs1

/-- Column names of a row are pairwise distinct — the invariant every Python
dict maintains. -/
abbrev WFRow (r : Row) : Prop := (r.map Prod.fst).Nodup

/-- Keys in order of first occurrence: the key order of a dict built by
repeated insertion. -/
def dedupFirst : List String → List String
  | [] => []
  | k :: ks => k :: (dedupFirst ks).filter (fun x => !(x == k))

/-- The negativity condition exactly as the claim words it: the string is
prefixed with a minus sign, or is wrapped in parentheses. -/
def specNegCond (s : String) : Bool :=
  headIs '-' s.data || (headIs '(' s.data && lastIs ')' s.data)

/-- Every space character of `l` is a plain `' '`, no two of them are
adjacent, and (when the flag is set) `l` does not start with one: the shape
`re.sub(r"\s+", " ", s)` leaves a string in. -/
def goodTail : Bool → List Char → Bool
  | _, [] => true
  | prev, c :: cs =>
    if pyIsSpace c then (c == ' ') && !prev && goodTail true cs
    else goodTail false cs

/-- The last character, if any, is not whitespace. -/
def noTrailSpace : List Char → Bool
  | [] => true
  | c :: cs => if cs.isEmpty then !pyIsSpace c else noTrailSpace cs

/-! ### Dictionary model: basic lemmas -/

theorem containsKey_of_mem {α : Type} {m : List (String × α)} {p : String × α}
    (h : p ∈ m) : containsKey p.1 m = true := by
  simp only [containsKey, List.any_eq_true]
  exact ⟨p, h, by simp⟩

theorem mem_dictInsert {α : Type} {k : String} {v : α} {m : List (String × α)}
    {p : String × α} (h : p ∈ dictInsert k v m) : p = (k, v) ∨ p ∈ m := by
  induction m with
  | nil => simpa [dictInsert] using h
  | cons q rest ih =>
    simp only [dictInsert] at h
    split at h
    · rcases List.mem_cons.mp h with h1 | h1
      · exact Or.inl h1
      · exact Or.inr (List.mem_cons_of_mem _ h1)
    · rcases List.mem_cons.mp h with h1 | h1
      · exact Or.inr (h1 ▸ List.mem_cons_self q rest)
      · rcases ih h1 with h2 | h2
        · exact Or.inl h2
        · exact Or.inr (List.mem_cons_of_mem _ h2)

theorem dictGet_of_mem_nodup {α : Type} {m : List (String × α)} {k : String}
    {v : α} (h : (k, v) ∈ m) (hn : (m.map Prod.fst).Nodup) (d : α) :
    dictGet k m d = v := by
  induction m with
  | nil => cases h
  | cons p rest ih =>
    simp only [List.map_cons, List.nodup_cons] at hn
    rcases List.mem_cons.mp h with h1 | h1
    · rw [← h1]
      simp [dictGet]
    · have hne : ¬(p.1 = k) := by
        intro he
        exact hn.1 (he ▸ List.mem_map.mpr ⟨(k, v), h1, rfl⟩)
      simp only [dictGet]
      rw [if_neg (by simpa using hne)]
      exact ih h1 hn.2

theorem keys_dictInsert_of_contains {α : Type} {k : String} (v : α)
    {m : List (String × α)} (h : containsKey k m = true) :
    (dictInsert k v m).map Prod.fst = m.map Prod.fst := by
  induction m with
  | nil => simp [containsKey] at h
  | cons q rest ih =>
    by_cases hq : q.1 = k
    · simp [dictInsert, hq]
    · have h2 : containsKey k rest = true := by
        simpa [containsKey, (by simpa using hq : ¬(q.1 == k) = true)] using h
      simp [dictInsert, (by simpa using hq : (q.1 == k) = false), ih h2]

theorem keys_dictInsert_of_not_contains {α : Type} {k : String} (v : α)
    {m : List (String × α)} (h : containsKey k m = false) :
    (dictInsert k v m).map Prod.fst = m.map Prod.fst ++ [k] := by
  induction m with
  | nil => simp [dictInsert]
  | cons q rest ih =>
    simp only [containsKey, List.any_cons, Bool.or_eq_false_iff] at h
    simp [dictInsert, h.1, ih (by simpa [containsKey] using h.2)]

theorem nodup_keys_dictInsert {α : Type} (k : String) (v : α)
    {m : List (String × α)} (hn : (m.map Prod.fst).Nodup) :
    ((dictInsert k v m).map Prod.fst).Nodup := by
  cases hc : containsKey k m with
  | true => rw [keys_dictInsert_of_contains v hc]; exact hn
  | false =>
    rw [keys_dictInsert_of_not_contains v hc]
    refine List.Nodup.append hn (List.nodup_singleton k) ?_
    intro x hx hx2
    rcases List.mem_singleton.mp hx2 with rfl
    rcases List.mem_map.mp hx with ⟨p, hp, hpk⟩
    have := containsKey_of_mem hp
    rw [hpk] at this
    rw [this] at hc
    cases hc

/-! ### `buildMap` invariants -/

theorem foldl_dictInsert_mem (kc : String) (rows : List Row) :
    ∀ (m : List (String × Row)) (p : String × Row),
      p ∈ rows.foldl (fun m r => dictInsert (row_key kc r) r m) m →
      p ∈ m ∨ (p.1 = row_key kc p.2 ∧ p.2 ∈ rows) := by
  induction rows with
  | nil => intro m p h; exact Or.inl h
  | cons r rs ih =>
    intro m p h
    rcases ih _ p h with h1 | h1
    · rcases mem_dictInsert h1 with h2 | h2
      · subst h2
        exact Or.inr ⟨rfl, List.mem_cons_self _ _⟩
      · exact Or.inl h2
    · exact Or.inr ⟨h1.1, List.mem_cons_of_mem _ h1.2⟩

theorem buildMap_mem {kc : String} {rows : List Row} {p : String × Row}
    (h : p ∈ buildMap kc rows) : p.1 = row_key kc p.2 ∧ p.2 ∈ rows := by
  rcases foldl_dictInsert_mem kc rows [] p h with h1 | h1
  · cases h1
  · exact h1

theorem foldl_dictInsert_nodup (kc : String) (rows : List Row) :
    ∀ (m : List (String × Row)), (m.map Prod.fst).Nodup →
      ((rows.foldl (fun m r => dictInsert (row_key kc r) r m) m).map Prod.fst).Nodup := by
  induction rows with
  | nil => intro m h; exact h
  | cons r rs ih => intro m h; exact ih _ (nodup_keys_dictInsert _ _ h)

theorem buildMap_nodup_keys (kc : String) (rows : List Row) :
    ((buildMap kc rows).map Prod.fst).Nodup :=
  foldl_dictInsert_nodup kc rows [] List.nodup_nil

theorem buildMap_dictGet {kc : String} {rows : List Row} {p : String × Row}
    (h : p ∈ buildMap kc rows) : dictGet p.1 (buildMap kc rows) [] = p.2 :=
  dictGet_of_mem_nodup h (buildMap_nodup_keys kc rows) []

/-! ### Claim theorems: diff no-op, empty save, concrete update scenario -/

/-- C2: for every row sequence and any key column, diffing a sequence against
itself yields `([], [])` — the change detector is a no-op on identical
inputs. -/
theorem detect_changes_self (rows : List Row) (kc : String) :
    detect_changes rows rows kc = ([], []) := by
  have hfilter1 :
      (buildMap kc (rows.map (fun r => canonicalize_row r))).filter
        (fun p => !containsKey p.1
          (buildMap kc (rows.map (fun r => canonicalize_row r)))) = [] := by
    refine List.filter_eq_nil_iff.mpr ?_
    intro p hp
    simp [containsKey_of_mem hp]
  have hfilter2 :
      (buildMap kc (rows.map (fun r => canonicalize_row r))).filter
        (fun p => containsKey p.1
            (buildMap kc (rows.map (fun r => canonicalize_row r)))
          && !pyDictEq p.2 (dictGet p.1
            (buildMap kc (rows.map (fun r => canonicalize_row r))) [])) = [] := by
    refine List.filter_eq_nil_iff.mpr ?_
    intro p hp
    simp [containsKey_of_mem hp, buildMap_dictGet hp, pyDictEq]
  simp only [detect_changes, hfilter1, hfilter2, List.map_nil]

/-- C9: saving an empty row sequence is a no-op: the whole file system,
in particular any pre-existing snapshot at the target path, is returned
unchanged. -/
theorem write_csv_atomic_empty (path : String) (fs : FS) :
    write_csv_atomic path [] fs = Except.ok fs := by
  simp [write_csv_atomic]

set_option maxRecDepth 4000

/-- C4: the concrete update scenario — one row whose `Amount` changes only in
formatting and whose `Action Type` changes in substance is reported as exactly
one updated entry under its `Modification Number`, and the formatter's line
for it lists only `Action Type`. -/
theorem update_column_isolation :
    detect_changes
      [[("Modification Number", "1"), ("Amount", "$100.00"), ("Action Type", "X")]]
      [[("Modification Number", "1"), ("Amount", "100.00"), ("Action Type", "Y")]]
    = ([], [("1",
        [("Modification Number", "1"), ("Amount", "$100.00"), ("Action Type", "X")],
        [("Modification Number", "1"), ("Amount", "100.00"), ("Action Type", "Y")])])
    ∧ format_change_lines "AWARD" ["Modification Number", "Amount", "Action Type"] []
      [("1",
        [("Modification Number", "1"), ("Amount", "$100.00"), ("Action Type", "X")],
        [("Modification Number", "1"), ("Amount", "100.00"), ("Action Type", "Y")])]
    = [" - Updated (Mod #1): Action Type: X → Y"] := by
  constructor
  · decide
  · decide

/-- C1 counterexample: two rows sharing the identity key `"1"` collapse to a
single map entry (last write wins), so diffing them against an empty snapshot
does not return the full input list. -/
theorem bootstrap_not_exact_on_duplicate_keys :
    detect_changes []
      [[("Modification Number", "1")], [("Modification Number", "1"), ("Amount", "2")]]
    ≠ ([[("Modification Number", "1")], [("Modification Number", "1"), ("Amount", "2")]],
       []) := by
  decide

/-- C5 counterexample: `"1(2)3"` is neither prefixed with a minus sign nor
wrapped in parentheses, yet `normalize_amount` marks it negative, because the
code only tests that `'('` and `')'` occur somewhere in the string. -/
theorem normalize_amount_paren_containment :
    normalize_amount "1(2)3" = "-123" ∧ specNegCond "1(2)3" = false := by
  decide

/-- C3: a row present in the old snapshot whose key is missing from the new
rows produces no output and no error — concretely `diff([A, B], [A]) = ([], [])`
for distinct keys, and in general an empty new sequence yields `([], [])`
whatever was in the old snapshot. -/
theorem deletion_invisibility :
    (∀ (kc : String) (A B : Row),
        row_key kc (canonicalize_row A) ≠ row_key kc (canonicalize_row B) →
        detect_changes [A, B] [A] kc = ([], []))
    ∧ (∀ (kc : String) (old_rows : List Row),
        detect_changes old_rows [] kc = ([], [])) := by
  constructor
  · intro kc A B h
    have hne : (row_key kc (canonicalize_row A)
        == row_key kc (canonicalize_row B)) = false :=
      beq_eq_false_iff_ne.mpr h
    simp [detect_changes, buildMap, dictInsert, containsKey, dictGet,
      pyDictEq, hne]
  · intro kc old_rows
    simp [detect_changes, buildMap]

/-- Witness for C3 at concrete rows with distinct keys. -/
theorem deletion_invisibility_witness :
    row_key "K" (canonicalize_row [("K", "a")])
      ≠ row_key "K" (canonicalize_row [("K", "b")])
    ∧ detect_changes [[("K", "a")], [("K", "b")]] [[("K", "a")]] "K" = ([], []) :=
  ⟨by decide, deletion_invisibility.1 "K" _ _ (by decide)⟩

/-! ### Snapshot store lemmas -/

theorem keyMem_eq_true_iff {k : String} {ks : List String} :
    keyMem k ks = true ↔ k ∈ ks := by
  simp only [keyMem, List.any_eq_true]
  constructor
  · rintro ⟨a, ha, he⟩
    rwa [show a = k from by simpa using he] at ha
  · intro h
    exact ⟨k, h, by simp⟩

theorem fsRead_fsWrite_self (p : String) (c : String) (fs : FS) :
    fsRead p (fsWrite p c fs) = some c := by
  induction fs with
  | nil => simp [fsRead, fsWrite, dictInsert]
  | cons q rest ih =>
    simp only [fsWrite, dictInsert] at *
    split
    · simp [fsRead]
    · rename_i hq
      simp only [fsRead]
      rw [if_neg hq]
      exact ih

theorem fsRead_fsWrite_ne {q p : String} (hqp : q ≠ p) (c : String) (fs : FS) :
    fsRead q (fsWrite p c fs) = fsRead q fs := by
  have hpq : (p == q) = false := by
    simp only [beq_eq_false_iff_ne]
    exact fun h => hqp h.symm
  induction fs with
  | nil => simp [fsRead, fsWrite, dictInsert, hpq]
  | cons r rest ih =>
    simp only [fsWrite, dictInsert] at ih ⊢
    by_cases hr : r.1 = p
    · rw [if_pos (by simpa using hr)]
      have hrq : (r.1 == q) = false := by
        simp only [beq_eq_false_iff_ne, hr]
        exact fun h => hqp h.symm
      simp [fsRead, hpq, hrq]
    · rw [if_neg (by simpa using hr)]
      simp only [fsRead]
      split
      · rfl
      · exact ih

theorem renderRows_error_of_bad {headers : List String} {rows : List Row}
    (h : ∃ r ∈ rows, r.any (fun p => !keyMem p.1 headers) = true) :
    (renderRows headers rows).2 = false := by
  induction rows with
  | nil => simp at h
  | cons r rs ih =>
    obtain ⟨r0, hr0, hbad⟩ := h
    rcases List.mem_cons.mp hr0 with h1 | h1
    · subst h1
      simp [renderRows, renderRow, hbad]
    · cases hrr : renderRow headers r with
      | none => simp [renderRows, hrr]
      | some line =>
        have hrs := ih ⟨r0, h1, hbad⟩
        simp [renderRows, hrr, hrs]

theorem tmpPath_ne (p : String) : p ≠ tmpPath p := by
  intro h
  have hlen := congrArg String.length h
  rw [tmpPath, String.length_append,
    show (".tmp" : String).length = 4 from rfl] at hlen
  omega

theorem write_csv_atomic_render_false {path : String} {fs : FS} {r0 : Row}
    {rest : List Row}
    (hb : (renderRows (r0.map Prod.fst) (r0 :: rest)).2 = false) :
    write_csv_atomic path (r0 :: rest) fs =
      Except.error (fsWrite (tmpPath path)
        (csvLine (r0.map Prod.fst)
          ++ (renderRows (r0.map Prod.fst) (r0 :: rest)).1) fs) := by
  simp [write_csv_atomic, hb]

theorem write_csv_atomic_render_true {path : String} {fs : FS} {r0 : Row}
    {rest : List Row}
    (hb : (renderRows (r0.map Prod.fst) (r0 :: rest)).2 = true) :
    write_csv_atomic path (r0 :: rest) fs =
      Except.ok (fsRename (tmpPath path) path
        (fsWrite (tmpPath path)
          (csvLine (r0.map Prod.fst)
            ++ (renderRows (r0.map Prod.fst) (r0 :: rest)).1) fs)) := by
  simp [write_csv_atomic, hb]

/-- C10: the CSV header comes from the first row alone — on success the
snapshot's content starts with the first row's column names — and a later row
with a column absent from the first row aborts the write with an error, after
touching only the temporary file: the snapshot at the final path (indeed every
path but the temp path) is unchanged. -/
theorem write_csv_atomic_first_row_headers :
    (∀ (path : String) (fs : FS) (r0 : Row) (rest : List Row),
        (∃ r ∈ rest, ∃ q ∈ r, q.1 ∉ r0.map Prod.fst) →
        ∃ fs1, write_csv_atomic path (r0 :: rest) fs = Except.error fs1
          ∧ fsRead path fs1 = fsRead path fs
          ∧ ∀ q, q ≠ tmpPath path → fsRead q fs1 = fsRead q fs)
    ∧ (∀ (path : String) (fs fs2 : FS) (r0 : Row) (rest : List Row),
        write_csv_atomic path (r0 :: rest) fs = Except.ok fs2 →
        ∃ body, fsRead path fs2 = some (csvLine (r0.map Prod.fst) ++ body)) := by
  constructor
  · intro path fs r0 rest hbad
    have hb : (renderRows (r0.map Prod.fst) (r0 :: rest)).2 = false := by
      apply renderRows_error_of_bad
      obtain ⟨r, hr, q, hq, hqk⟩ := hbad
      refine ⟨r, List.mem_cons_of_mem _ hr, ?_⟩
      simp only [List.any_eq_true]
      refine ⟨q, hq, ?_⟩
      have hk : keyMem q.1 (List.map Prod.fst r0) = false := by
        cases hk0 : keyMem q.1 (List.map Prod.fst r0) with
        | false => rfl
        | true => exact absurd (keyMem_eq_true_iff.mp hk0) hqk
      simp [hk]
    refine ⟨_, write_csv_atomic_render_false hb, ?_, ?_⟩
    · exact fsRead_fsWrite_ne (tmpPath_ne path) _ fs
    · intro q hq
      exact fsRead_fsWrite_ne hq _ fs
  · intro path fs fs2 r0 rest hok
    cases hb : (renderRows (r0.map Prod.fst) (r0 :: rest)).2 with
    | false =>
      rw [write_csv_atomic_render_false hb] at hok
      cases hok
    | true =>
      rw [write_csv_atomic_render_true hb] at hok
      cases hok
      refine ⟨(renderRows (r0.map Prod.fst) (r0 :: rest)).1, ?_⟩
      simp only [fsRename, fsRead_fsWrite_self]

/-- Witness for C10: a second row with column `B` absent from the first row's
header set aborts with the snapshot untouched, and a well-formed write puts
the first row's header line at the front of the file. -/
theorem write_csv_atomic_first_row_headers_witness :
    (∃ r ∈ [[("B", "2")]], ∃ q ∈ r, q.1 ∉ ([("A", "1")] : Row).map Prod.fst)
    ∧ (∃ fs1,
        write_csv_atomic "p.csv" [[("A", "1")], [("B", "2")]] [("p.csv", "old")]
          = Except.error fs1
        ∧ fsRead "p.csv" fs1 = fsRead "p.csv" [("p.csv", "old")]
        ∧ ∀ q, q ≠ tmpPath "p.csv" → fsRead q fs1 = fsRead q [("p.csv", "old")])
    ∧ (∃ body, fsRead "p.csv" [("p.csv", "A\r\n1\r\n")]
        = some (csvLine (([("A", "1")] : Row).map Prod.fst) ++ body)) :=
  ⟨by decide,
   write_csv_atomic_first_row_headers.1 "p.csv" [("p.csv", "old")] [("A", "1")]
     [[("B", "2")]] (by decide),
   write_csv_atomic_first_row_headers.2 "p.csv" [] [("p.csv", "A\r\n1\r\n")]
     [("A", "1")] [] (by rfl)⟩

/-! ### Character classes and `str.strip` commutation -/

theorem space_char_cases {c : Char} (h : pyIsSpace c = true) :
    c = ' ' ∨ c = '\t' ∨ c = '\n' ∨ c = '\r' ∨ c = '\x0b' ∨ c = '\x0c' := by
  simpa [pyIsSpace, beq_iff_eq, or_assoc] using h

theorem pyIsSpace_not_digdot {c : Char} (h : pyIsSpace c = true) :
    isDigDot c = false := by
  rcases space_char_cases h with h | h | h | h | h | h <;> subst h <;> decide

theorem hasChar_iff_mem {c : Char} {l : List Char} :
    hasChar c l = true ↔ c ∈ l := by
  induction l with
  | nil => simp [hasChar]
  | cons a as ih =>
    simp only [hasChar, Bool.or_eq_true, beq_iff_eq, ih, List.mem_cons]
    constructor
    · rintro (rfl | h)
      · exact Or.inl rfl
      · exact Or.inr h
    · rintro (rfl | h)
      · exact Or.inl rfl
      · exact Or.inr h

theorem filter_dropWhile_eq {p q : Char → Bool} {l : List Char}
    (hpq : ∀ c, q c = true → p c = false) :
    (l.dropWhile q).filter p = l.filter p := by
  induction l with
  | nil => rfl
  | cons c cs ih =>
    by_cases hq : q c = true
    · rw [List.dropWhile_cons_of_pos hq, ih,
        List.filter_cons_of_neg (by simp [hpq c hq])]
    · rw [List.dropWhile_cons_of_neg hq]

theorem dropTrail_eq_nil_all_space {l : List Char} (h : dropTrail l = []) :
    ∀ c ∈ l, pyIsSpace c = true := by
  induction l with
  | nil => simp
  | cons c cs ih =>
    simp only [dropTrail] at h
    split at h
    · rename_i hcond
      simp only [Bool.and_eq_true, List.isEmpty_iff] at hcond
      intro x hx
      rcases List.mem_cons.mp hx with rfl | hx2
      · exact hcond.2
      · exact ih hcond.1 x hx2
    · cases h

theorem filter_dropTrail_eq {p : Char → Bool} {l : List Char}
    (hp : ∀ c, pyIsSpace c = true → p c = false) :
    (dropTrail l).filter p = l.filter p := by
  induction l with
  | nil => rfl
  | cons c cs ih =>
    simp only [dropTrail]
    split
    · rename_i hcond
      simp only [Bool.and_eq_true, List.isEmpty_iff] at hcond
      have hall : ∀ x ∈ c :: cs, pyIsSpace x = true := by
        intro x hx
        rcases List.mem_cons.mp hx with rfl | hx2
        · exact hcond.2
        · exact dropTrail_eq_nil_all_space hcond.1 x hx2
      rw [List.filter_nil]
      symm
      rw [List.filter_eq_nil_iff]
      intro a ha
      simp [hp a (hall a ha)]
    · simp only [List.filter_cons, ih]

theorem mem_of_mem_dropTrail {l : List Char} {c : Char}
    (h : c ∈ dropTrail l) : c ∈ l := by
  induction l with
  | nil => simp [dropTrail] at h
  | cons a as ih =>
    simp only [dropTrail] at h
    split at h
    · cases h
    · rcases List.mem_cons.mp h with rfl | h2
      · exact List.mem_cons_self _ _
      · exact List.mem_cons_of_mem _ (ih h2)

theorem mem_dropTrail_of_mem {l : List Char} {c : Char} (hc : c ∈ l)
    (hs : pyIsSpace c = false) : c ∈ dropTrail l := by
  induction l with
  | nil => cases hc
  | cons a as ih =>
    simp only [dropTrail]
    split
    · rename_i hcond
      simp only [Bool.and_eq_true, List.isEmpty_iff] at hcond
      exfalso
      rcases List.mem_cons.mp hc with rfl | h2
      · rw [hcond.2] at hs
        cases hs
      · rw [dropTrail_eq_nil_all_space hcond.1 c h2] at hs
        cases hs
    · rcases List.mem_cons.mp hc with rfl | h2
      · exact List.mem_cons_self _ _
      · exact List.mem_cons_of_mem _ (ih h2)

theorem mem_dropWhile_of_mem {q : Char → Bool} {l : List Char} {c : Char}
    (hc : c ∈ l) (hs : q c = false) : c ∈ l.dropWhile q := by
  induction l with
  | nil => cases hc
  | cons a as ih =>
    by_cases ha : q a = true
    · rw [List.dropWhile_cons_of_pos ha]
      rcases List.mem_cons.mp hc with rfl | h2
      · rw [ha] at hs
        cases hs
      · exact ih h2
    · rw [List.dropWhile_cons_of_neg ha]
      exact hc

theorem hasChar_pyStrip {c : Char} (hs : pyIsSpace c = false) (l : List Char) :
    hasChar c (pyStrip l) = hasChar c l := by
  cases hdt : hasChar c (pyStrip l) with
  | true =>
    symm
    rw [hasChar_iff_mem]
    exact (List.dropWhile_sublist _).mem (mem_of_mem_dropTrail
      (hasChar_iff_mem.mp hdt))
  | false =>
    cases hl : hasChar c l with
    | false => rfl
    | true =>
      exfalso
      have hmem : c ∈ pyStrip l :=
        mem_dropTrail_of_mem (mem_dropWhile_of_mem (hasChar_iff_mem.mp hl) hs) hs
      rw [hasChar_iff_mem.mpr hmem] at hdt
      cases hdt

theorem filter_digdot_pyStrip (l : List Char) :
    (pyStrip l).filter isDigDot = l.filter isDigDot := by
  unfold pyStrip
  rw [filter_dropTrail_eq (fun c h => pyIsSpace_not_digdot h),
    filter_dropWhile_eq (fun c h => pyIsSpace_not_digdot h)]

/-- C5 amended: `normalize_amount s` keeps exactly the digits and dots of `s`
(in order), returns `"0"` when none remain, and otherwise prefixes a single
`'-'` iff the whitespace-stripped input starts with `'-'` or the input
contains both `'('` and `')'` somewhere (the code tests containment, not
wrapping); the spec's concrete examples all hold. -/
theorem normalize_amount_characterization :
    (∀ s : String,
      normalize_amount s =
        (let d := s.data.filter isDigDot
         if d = [] then "0"
         else if headIs '-' (pyStrip s.data)
                 || (hasChar '(' s.data && hasChar ')' s.data)
              then ⟨'-' :: d⟩ else ⟨d⟩))
    ∧ normalize_amount "$1,234.50" = "1234.50"
    ∧ normalize_amount "1234.50" = "1234.50"
    ∧ normalize_amount "($500.00)" = "-500.00"
    ∧ normalize_amount "" = "0" := by
  refine ⟨?_, by decide, by decide, by decide, by decide⟩
  intro s
  simp only [normalize_amount]
  rw [filter_digdot_pyStrip, hasChar_pyStrip (by decide),
    hasChar_pyStrip (by decide)]

/-! ### Shape invariants of collapsed whitespace -/

theorem goodTail_collapseWS (l : List Char) :
    ∀ b, goodTail b (collapseWS b l) = true := by
  induction l with
  | nil => intro b; rfl
  | cons c cs ih =>
    intro b
    by_cases hc : pyIsSpace c = true
    · cases b with
      | false =>
        simp only [collapseWS, hc, if_true, Bool.false_eq_true, if_false]
        simp only [goodTail, show pyIsSpace ' ' = true from by decide, if_true]
        simp [ih true]
      | true =>
        simp only [collapseWS, hc, if_true]
        exact ih true
    · simp only [collapseWS, hc, Bool.false_eq_true, if_false]
      simp only [goodTail, hc, if_false]
      exact ih false

theorem collapseWS_of_goodTail {l : List Char} :
    ∀ {b}, goodTail b l = true → collapseWS b l = l := by
  induction l with
  | nil => intro b _; rfl
  | cons c cs ih =>
    intro b h
    by_cases hc : pyIsSpace c = true
    · simp only [goodTail, hc, if_true, Bool.and_eq_true, Bool.not_eq_true',
        beq_iff_eq] at h
      obtain ⟨⟨hsp, hb⟩, ht⟩ := h
      subst hb
      simp only [collapseWS, hc, if_true, Bool.false_eq_true, if_false]
      rw [ih ht, hsp]
    · simp only [goodTail, hc, Bool.false_eq_true, if_false] at h
      simp only [collapseWS, hc, Bool.false_eq_true, if_false]
      rw [ih h]

theorem dropWhile_of_goodTail_true {l : List Char}
    (h : goodTail true l = true) : l.dropWhile pyIsSpace = l := by
  cases l with
  | nil => rfl
  | cons c cs =>
    by_cases hc : pyIsSpace c = true
    · simp only [goodTail, hc, if_true, Bool.and_eq_true, Bool.not_eq_true'] at h
      cases h.1.2
    · exact List.dropWhile_cons_of_neg hc

theorem goodTail_dropWhile {l : List Char} (h : goodTail false l = true) :
    goodTail true (l.dropWhile pyIsSpace) = true := by
  induction l with
  | nil => rfl
  | cons c cs ih =>
    by_cases hc : pyIsSpace c = true
    · simp only [goodTail, hc, if_true, Bool.and_eq_true] at h
      rw [List.dropWhile_cons_of_pos hc,
        dropWhile_of_goodTail_true h.2]
      exact h.2
    · rw [List.dropWhile_cons_of_neg hc]
      simpa only [goodTail, hc, Bool.false_eq_true, if_false] using h

theorem goodTail_mono {l : List Char} (h : goodTail true l = true) :
    goodTail false l = true := by
  cases l with
  | nil => rfl
  | cons c cs =>
    by_cases hc : pyIsSpace c = true
    · simp only [goodTail, hc, if_true, Bool.and_eq_true, Bool.not_eq_true'] at h
      cases h.1.2
    · simpa only [goodTail, hc, Bool.false_eq_true, if_false] using h

theorem goodTail_dropTrail {l : List Char} :
    ∀ {b}, goodTail b l = true → goodTail b (dropTrail l) = true := by
  induction l with
  | nil => intro b _; rfl
  | cons c cs ih =>
    intro b h
    simp only [dropTrail]
    split
    · rfl
    · by_cases hc : pyIsSpace c = true
      · simp only [goodTail, hc, if_true, Bool.and_eq_true] at h ⊢
        exact ⟨h.1, ih h.2⟩
      · simp only [goodTail, hc, Bool.false_eq_true, if_false] at h ⊢
        exact ih h

theorem noTrailSpace_dropTrail (l : List Char) :
    noTrailSpace (dropTrail l) = true := by
  induction l with
  | nil => rfl
  | cons c cs ih =>
    simp only [dropTrail]
    split
    · rfl
    · rename_i hcond
      cases hdt : dropTrail cs with
      | nil =>
        simp only [hdt, List.isEmpty_nil, Bool.true_and] at hcond
        simp only [hdt, noTrailSpace, List.isEmpty_nil, if_true,
          Bool.not_eq_true']
        cases hpc : pyIsSpace c with
        | false => rfl
        | true => exact absurd hpc hcond
      | cons d ds =>
        rw [hdt] at ih
        simp only [hdt, noTrailSpace, List.isEmpty_cons, Bool.false_eq_true,
          if_false]
        exact ih

theorem dropTrail_of_noTrailSpace {l : List Char}
    (h : noTrailSpace l = true) : dropTrail l = l := by
  induction l with
  | nil => rfl
  | cons c cs ih =>
    cases cs with
    | nil =>
      simp only [noTrailSpace, List.isEmpty_nil, if_true,
        Bool.not_eq_true'] at h
      simp [dropTrail, h]
    | cons d ds =>
      simp only [noTrailSpace, List.isEmpty_cons, Bool.false_eq_true,
        if_false] at h
      have hd := ih h
      show (if (dropTrail (d :: ds)).isEmpty && pyIsSpace c then []
            else c :: dropTrail (d :: ds)) = c :: d :: ds
      rw [hd]
      rfl

theorem goodTail_of_no_space {l : List Char}
    (h : ∀ c ∈ l, pyIsSpace c = false) : ∀ b, goodTail b l = true := by
  induction l with
  | nil => intro b; rfl
  | cons c cs ih =>
    intro b
    simp only [goodTail, h c (List.mem_cons_self c cs), Bool.false_eq_true,
      if_false]
    exact ih (fun x hx => h x (List.mem_cons_of_mem _ hx)) false

theorem noTrailSpace_of_no_space {l : List Char}
    (h : ∀ c ∈ l, pyIsSpace c = false) : noTrailSpace l = true := by
  induction l with
  | nil => rfl
  | cons c cs ih =>
    cases cs with
    | nil => simp [noTrailSpace, h c (List.mem_cons_self c [])]
    | cons d ds =>
      simp only [noTrailSpace, List.isEmpty_cons, Bool.false_eq_true, if_false]
      exact ih (fun x hx => h x (List.mem_cons_of_mem _ hx))

theorem mem_collapseWS {l : List Char} {b : Bool} {c : Char}
    (h : c ∈ collapseWS b l) : c = ' ' ∨ c ∈ l := by
  induction l generalizing b with
  | nil => cases h
  | cons a as ih =>
    by_cases ha : pyIsSpace a = true
    · cases b with
      | true =>
        simp only [collapseWS, ha, if_true] at h
        rcases ih h with h1 | h1
        · exact Or.inl h1
        · exact Or.inr (List.mem_cons_of_mem _ h1)
      | false =>
        simp only [collapseWS, ha, if_true, Bool.false_eq_true, if_false] at h
        rcases List.mem_cons.mp h with rfl | h1
        · exact Or.inl rfl
        · rcases ih h1 with h2 | h2
          · exact Or.inl h2
          · exact Or.inr (List.mem_cons_of_mem _ h2)
    · simp only [collapseWS, ha, Bool.false_eq_true, if_false] at h
      rcases List.mem_cons.mp h with rfl | h1
      · exact Or.inr (List.mem_cons_self _ _)
      · rcases ih h1 with h2 | h2
        · exact Or.inl h2
        · exact Or.inr (List.mem_cons_of_mem _ h2)

theorem deNbsp_no_nbsp {l : List Char} {c : Char} (h : c ∈ deNbsp l) :
    c ≠ nbspChar := by
  simp only [deNbsp, List.mem_map] at h
  obtain ⟨a, _, ha⟩ := h
  by_cases haa : a = nbspChar
  · simp only [haa, beq_self_eq_true, if_true] at ha
    rw [← ha]
    decide
  · simp only [show (a == nbspChar) = false from by simpa using haa,
      Bool.false_eq_true, if_false] at ha
    rw [← ha]
    exact haa

theorem deNbsp_of_no_nbsp {l : List Char}
    (h : ∀ c ∈ l, c ≠ nbspChar) : deNbsp l = l := by
  induction l with
  | nil => rfl
  | cons c cs ih =>
    have hc : (c == nbspChar) = false := by
      simpa using h c (List.mem_cons_self c cs)
    simp only [deNbsp, List.map_cons, hc, Bool.false_eq_true, if_false]
    have htail := ih (fun x hx => h x (List.mem_cons_of_mem _ hx))
    simp only [deNbsp] at htail
    rw [htail]

/-! ### Idempotence of the canonicalizer -/

theorem pyStrip_goodTail {l : List Char} (h : goodTail false l = true) :
    goodTail true (pyStrip l) = true :=
  goodTail_dropTrail (goodTail_dropWhile h)

theorem pyStrip_fix {l : List Char}
    (hg : goodTail true l = true) (hn : noTrailSpace l = true) :
    pyStrip l = l := by
  unfold pyStrip
  rw [dropWhile_of_goodTail_true hg, dropTrail_of_noTrailSpace hn]

theorem normalize_space_core_idem (l : List Char) :
    pyStrip (collapseWS false (deNbsp (pyStrip (collapseWS false (deNbsp l)))))
      = pyStrip (collapseWS false (deNbsp l)) := by
  have hm1 : goodTail false (collapseWS false (deNbsp l)) = true :=
    goodTail_collapseWS _ false
  have hgr : goodTail true (pyStrip (collapseWS false (deNbsp l))) = true :=
    pyStrip_goodTail hm1
  have hnb : ∀ c ∈ pyStrip (collapseWS false (deNbsp l)), c ≠ nbspChar := by
    intro c hc
    have h1 : c ∈ collapseWS false (deNbsp l) :=
      (List.dropWhile_sublist _).mem (mem_of_mem_dropTrail hc)
    rcases mem_collapseWS h1 with h2 | h2
    · rw [h2]
      decide
    · exact deNbsp_no_nbsp h2
  rw [deNbsp_of_no_nbsp hnb, collapseWS_of_goodTail (goodTail_mono hgr)]
  exact pyStrip_fix hgr (noTrailSpace_dropTrail _)

theorem normalize_space_idem (s : String) :
    normalize_space (normalize_space s) = normalize_space s :=
  congrArg String.mk (normalize_space_core_idem s.data)

theorem normalize_space_fix {s : String}
    (h : ∀ c ∈ s.data, pyIsSpace c = false ∧ c ≠ nbspChar) :
    normalize_space s = s := by
  obtain ⟨l⟩ := s
  show (⟨pyStrip (collapseWS false (deNbsp l))⟩ : String) = ⟨l⟩
  rw [deNbsp_of_no_nbsp (fun c hc => (h c hc).2),
    collapseWS_of_goodTail (goodTail_of_no_space (fun c hc => (h c hc).1) false),
    pyStrip_fix (goodTail_of_no_space (fun c hc => (h c hc).1) true)
      (noTrailSpace_of_no_space (fun c hc => (h c hc).1))]

theorem isDigDot_not_space {c : Char} (h : isDigDot c = true) :
    pyIsSpace c = false ∧ c ≠ nbspChar := by
  constructor
  · cases hp : pyIsSpace c with
    | false => rfl
    | true =>
      rw [pyIsSpace_not_digdot hp] at h
      cases h
  · intro hc
    subst hc
    revert h
    decide

theorem normalize_amount_chars {s : String} {c : Char}
    (h : c ∈ (normalize_amount s).data) :
    pyIsSpace c = false ∧ c ≠ nbspChar := by
  simp only [normalize_amount] at h
  split at h
  · have hc : c = '0' := by simpa using h
    subst hc
    constructor <;> decide
  · split at h
    · rcases List.mem_cons.mp h with rfl | h2
      · constructor <;> decide
      · exact isDigDot_not_space (List.of_mem_filter h2)
    · exact isDigDot_not_space (List.of_mem_filter h)

theorem normalize_space_normalize_amount (s : String) :
    normalize_space (normalize_amount s) = normalize_amount s :=
  normalize_space_fix (fun _ hc => normalize_amount_chars hc)

theorem normalize_amount_mk_dash {d : List Char} (hne : ¬(d = []))
    (hdd : ∀ c ∈ d, isDigDot c = true) :
    normalize_amount ⟨'-' :: d⟩ = ⟨'-' :: d⟩ := by
  have hchars : ∀ c ∈ '-' :: d, pyIsSpace c = false := by
    intro c hc
    rcases List.mem_cons.mp hc with rfl | h2
    · decide
    · exact (isDigDot_not_space (hdd c h2)).1
  have hstrip : pyStrip ('-' :: d) = '-' :: d :=
    pyStrip_fix (goodTail_of_no_space hchars true)
      (noTrailSpace_of_no_space hchars)
  simp only [normalize_amount]
  rw [hstrip, List.filter_cons_of_neg (by decide),
    List.filter_eq_self.mpr hdd, if_neg hne,
    if_pos (by simp [headIs])]

theorem normalize_amount_mk_digits {d : List Char} (hne : ¬(d = []))
    (hdd : ∀ c ∈ d, isDigDot c = true) :
    normalize_amount ⟨d⟩ = ⟨d⟩ := by
  have hchars : ∀ c ∈ d, pyIsSpace c = false :=
    fun c hc => (isDigDot_not_space (hdd c hc)).1
  have hstrip : pyStrip d = d :=
    pyStrip_fix (goodTail_of_no_space hchars true)
      (noTrailSpace_of_no_space hchars)
  have hh : headIs '-' d = false := by
    cases d with
    | nil => rfl
    | cons c cs =>
      by_cases hc : c = '-'
      · subst hc
        exact absurd (hdd '-' (List.mem_cons_self _ _)) (by decide)
      · simpa [headIs] using hc
  have hp : hasChar '(' d = false := by
    cases hx : hasChar '(' d with
    | false => rfl
    | true => exact absurd (hdd '(' (hasChar_iff_mem.mp hx)) (by decide)
  simp only [normalize_amount]
  rw [hstrip, List.filter_eq_self.mpr hdd, if_neg hne,
    if_neg (by simp [hh, hp])]

theorem normalize_amount_idem (s : String) :
    normalize_amount (normalize_amount s) = normalize_amount s := by
  by_cases hd : (pyStrip s.data).filter isDigDot = []
  · have h0 : normalize_amount s = "0" := by
      simp only [normalize_amount]
      rw [if_pos hd]
    rw [h0]
    decide
  · have hdd : ∀ c ∈ (pyStrip s.data).filter isDigDot, isDigDot c = true :=
      fun c hc => List.of_mem_filter hc
    by_cases hneg : (headIs '-' (pyStrip s.data)
        || (hasChar '(' (pyStrip s.data) && hasChar ')' (pyStrip s.data))) = true
    · have h1 : normalize_amount s = ⟨'-' :: (pyStrip s.data).filter isDigDot⟩ := by
        simp only [normalize_amount]
        rw [if_neg hd, if_pos hneg]
      rw [h1, normalize_amount_mk_dash hd hdd]
    · have h1 : normalize_amount s = ⟨(pyStrip s.data).filter isDigDot⟩ := by
        simp only [normalize_amount]
        rw [if_neg hd, if_neg hneg]
      rw [h1, normalize_amount_mk_digits hd hdd]

/-- C6: row canonicalization is idempotent, for every row and every
designation of monetary columns: whitespace collapsing and the numeric
reduction of monetary values are both fixed on their own output. -/
theorem canonicalize_row_idem (row : Row) (amount_cols : List String) :
    canonicalize_row (canonicalize_row row amount_cols) amount_cols
      = canonicalize_row row amount_cols := by
  simp only [canonicalize_row, List.map_map]
  refine List.map_congr_left ?_
  intro kv _
  by_cases hk : amount_cols.contains kv.1 = true
  · simp only [Function.comp, hk, if_true]
    rw [normalize_space_normalize_amount, normalize_amount_idem]
  · have hk2 : amount_cols.contains kv.1 = false := by
      simpa using hk
    simp only [Function.comp, hk2, Bool.false_eq_true, if_false]
    rw [normalize_space_idem]

/-! ### The code-point order on strings -/

theorem strLtAux_asymm : ∀ {a b : List Char},
    strLtAux a b = true → strLtAux b a = false := by
  intro a
  induction a with
  | nil =>
    intro b h
    cases b with
    | nil => cases h
    | cons y ys => rfl
  | cons x xs ih =>
    intro b h
    cases b with
    | nil => cases h
    | cons y ys =>
      simp only [strLtAux] at h ⊢
      by_cases hxy : x < y
      · rw [if_neg (lt_asymm hxy), if_pos hxy]
      · rw [if_neg hxy] at h
        by_cases hyx : y < x
        · rw [if_pos hyx] at h
          cases h
        · rw [if_neg hyx] at h
          rw [if_neg hyx, if_neg hxy]
          exact ih h

theorem strLtAux_total_eq : ∀ {a b : List Char},
    strLtAux a b = false → strLtAux b a = false → a = b := by
  intro a
  induction a with
  | nil =>
    intro b h1 _
    cases b with
    | nil => rfl
    | cons y ys => cases h1
  | cons x xs ih =>
    intro b h1 h2
    cases b with
    | nil => cases h2
    | cons y ys =>
      simp only [strLtAux] at h1 h2
      by_cases hxy : x < y
      · rw [if_pos hxy] at h1
        cases h1
      · by_cases hyx : y < x
        · rw [if_pos hyx] at h2
          cases h2
        · rw [if_neg hxy, if_neg hyx] at h1
          rw [if_neg hyx, if_neg hxy] at h2
          rw [le_antisymm (le_of_not_lt hyx) (le_of_not_lt hxy), ih h1 h2]

theorem strLtAux_le_trans : ∀ {a b c : List Char},
    strLtAux b a = false → strLtAux c b = false → strLtAux c a = false := by
  intro a
  induction a with
  | nil =>
    intro b c _ _
    cases c with
    | nil => rfl
    | cons z zs => rfl
  | cons x xs ih =>
    intro b c h1 h2
    cases b with
    | nil => cases h1
    | cons y ys =>
      cases c with
      | nil => cases h2
      | cons z zs =>
        simp only [strLtAux] at h1 h2 ⊢
        by_cases hyx : y < x
        · rw [if_pos hyx] at h1
          cases h1
        · by_cases hzy : z < y
          · rw [if_pos hzy] at h2
            cases h2
          · have hxz : ¬ z < x :=
              fun h => hzy (lt_of_lt_of_le h (le_of_not_lt hyx))
            rw [if_neg hxz]
            by_cases hxz2 : x < z
            · rw [if_pos hxz2]
            · have hxy : x = y :=
                le_antisymm (le_of_not_lt hyx)
                  (le_of_not_lt fun h =>
                    hxz2 (lt_of_lt_of_le h (le_of_not_lt hzy)))
              rw [if_neg hxz2]
              rw [if_neg hyx] at h1
              rw [if_neg hzy] at h2
              rw [← hxy] at h1
              rw [if_neg (lt_irrefl x)] at h1
              rw [if_neg (show ¬ y < z from hxy ▸ hxz2)] at h2
              exact ih h1 h2

theorem strLt_asymm {a b : String} (h : strLt a b = true) :
    strLt b a = false := strLtAux_asymm h

theorem strLt_total_eq {a b : String} (h1 : strLt a b = false)
    (h2 : strLt b a = false) : a = b := by
  obtain ⟨la⟩ := a
  obtain ⟨lb⟩ := b
  exact congrArg String.mk (strLtAux_total_eq h1 h2)

theorem strLt_le_trans {a b c : String} (h1 : strLt b a = false)
    (h2 : strLt c b = false) : strLt c a = false := strLtAux_le_trans h1 h2

/-! ### Sorting by key is canonical on permutations with distinct keys -/

theorem insertByKey_perm (p : String × String) (l : List (String × String)) :
    List.Perm (insertByKey p l) (p :: l) := by
  induction l with
  | nil => exact List.Perm.refl _
  | cons q rest ih =>
    simp only [insertByKey]
    split
    · exact (ih.cons q).trans (List.Perm.swap p q rest)
    · exact List.Perm.refl _

theorem sortByKey_perm (l : List (String × String)) :
    List.Perm (sortByKey l) l := by
  induction l with
  | nil => exact List.Perm.refl _
  | cons p rest ih =>
    exact (insertByKey_perm p (sortByKey rest)).trans (ih.cons p)

theorem pairwise_insertByKey {p : String × String}
    {l : List (String × String)}
    (h : l.Pairwise (fun a b => strLt b.1 a.1 = false)) :
    (insertByKey p l).Pairwise (fun a b => strLt b.1 a.1 = false) := by
  induction l with
  | nil => simp [insertByKey]
  | cons q rest ih =>
    rcases List.pairwise_cons.mp h with ⟨hq, hrest⟩
    simp only [insertByKey]
    split
    · rename_i hlt
      refine List.pairwise_cons.mpr ⟨?_, ih hrest⟩
      intro x hx
      rcases List.mem_cons.mp ((insertByKey_perm p rest).mem_iff.mp hx)
        with rfl | hx2
      · exact strLt_asymm hlt
      · exact hq x hx2
    · rename_i hlt
      have hqp : strLt q.1 p.1 = false := by
        cases hv : strLt q.1 p.1 with
        | false => rfl
        | true => exact absurd hv hlt
      refine List.pairwise_cons.mpr ⟨?_, h⟩
      intro x hx
      rcases List.mem_cons.mp hx with rfl | hx2
      · exact hqp
      · exact strLt_le_trans hqp (hq x hx2)

theorem pairwise_sortByKey (l : List (String × String)) :
    (sortByKey l).Pairwise (fun a b => strLt b.1 a.1 = false) := by
  induction l with
  | nil => simp [sortByKey]
  | cons p rest ih => exact pairwise_insertByKey ih

theorem sorted_nodup_perm_eq {l₁ l₂ : List (String × String)}
    (hp : List.Perm l₁ l₂)
    (hs1 : l₁.Pairwise (fun a b => strLt b.1 a.1 = false))
    (hs2 : l₂.Pairwise (fun a b => strLt b.1 a.1 = false))
    (hn : (l₁.map Prod.fst).Nodup) : l₁ = l₂ := by
  have hn2 : (l₂.map Prod.fst).Nodup := ((hp.map Prod.fst).nodup_iff).mp hn
  have key : ∀ {l : List (String × String)},
      l.Pairwise (fun a b => strLt b.1 a.1 = false) →
      (l.map Prod.fst).Nodup →
      l.Pairwise (fun a b => strLt a.1 b.1 = true) := by
    intro l hs hnd
    have hne : l.Pairwise (fun a b => a.1 ≠ b.1) :=
      List.pairwise_map.mp hnd
    refine (hs.and hne).imp ?_
    rintro a b ⟨hab, hne2⟩
    cases hv : strLt a.1 b.1 with
    | true => rfl
    | false => exact absurd (strLt_total_eq hv hab) hne2
  haveI : IsAntisymm (String × String) (fun a b => strLt a.1 b.1 = true) :=
    ⟨fun a b h1 h2 => absurd h2 (by simp [strLt_asymm h1])⟩
  exact List.eq_of_perm_of_sorted hp (key hs1 hn) (key hs2 hn2)

theorem sortByKey_eq_of_perm {r r' : Row} (hp : r.Perm r') (hn : WFRow r) :
    sortByKey r = sortByKey r' := by
  have h1 : List.Perm (sortByKey r) (sortByKey r') :=
    (sortByKey_perm r).trans (hp.trans (sortByKey_perm r').symm)
  have hnr : ((sortByKey r).map Prod.fst).Nodup :=
    (((sortByKey_perm r).map Prod.fst).nodup_iff).mpr hn
  exact sorted_nodup_perm_eq h1 (pairwise_sortByKey r) (pairwise_sortByKey r') hnr

theorem jsonDumps_eq_of_perm {r r' : Row} (hp : r.Perm r') (hn : WFRow r) :
    jsonDumps r = jsonDumps r' := by
  unfold jsonDumps
  rw [sortByKey_eq_of_perm hp hn]

/-! ### Lookup and key are invariant under permutation of a dict's items -/

theorem pyGetD_perm {k d : String} : ∀ {r r' : Row}, r.Perm r' → WFRow r →
    pyGetD r k d = pyGetD r' k d := by
  intro r r' hp
  induction hp with
  | nil => intro _; rfl
  | cons x h ih =>
    intro hn
    simp only [pyGetD]
    split
    · rfl
    · refine ih ?_
      simp only [WFRow, List.map_cons, List.nodup_cons] at hn
      exact hn.2
  | swap x y l =>
    intro hn
    simp only [WFRow, List.map_cons, List.nodup_cons, List.mem_cons] at hn
    have hxy : ¬(y.1 = x.1) := fun he => hn.1 (Or.inl he)
    simp only [pyGetD]
    by_cases hyk : y.1 = k
    · rw [if_pos (by simpa using hyk),
        if_neg (by simpa using fun he : x.1 = k => hxy (hyk.trans he.symm)),
        if_pos (by simpa using hyk)]
    · by_cases hxk : x.1 = k
      · rw [if_neg (by simpa using hyk), if_pos (by simpa using hxk),
          if_pos (by simpa using hxk)]
      · rw [if_neg (by simpa using hyk), if_neg (by simpa using hxk),
          if_neg (by simpa using hxk), if_neg (by simpa using hyk)]
  | trans h₁ h₂ ih₁ ih₂ =>
    intro hn
    exact (ih₁ hn).trans (ih₂ (((h₁.map Prod.fst).nodup_iff).mp hn))

theorem row_key_perm {kc : String} {r r' : Row} (hp : r.Perm r')
    (hn : WFRow r) : row_key kc r = row_key kc r' := by
  simp only [row_key, pyGet]
  rw [pyGetD_perm hp hn]
  split
  · exact jsonDumps_eq_of_perm hp hn
  · rfl

/-- C7: the identity key is a pure function of the row; rows with the same
non-empty key-column value share a key whatever their other columns are; a row
whose key-column value is empty or absent falls back to the sorted-by-column
JSON signature of the whole row, so the same row content yields the same key
whatever the column insertion order. -/
theorem row_key_determinism :
    (∀ (kc : String) (r r' : Row),
        pyGet r kc = pyGet r' kc → pyGet r kc ≠ "" →
        row_key kc r = row_key kc r')
    ∧ (∀ (kc : String) (r : Row), pyGet r kc = "" →
        row_key kc r = jsonDumps r)
    ∧ (∀ (kc : String) (r r' : Row), pyGet r kc = "" →
        r.Perm r' → WFRow r → row_key kc r = row_key kc r') := by
  refine ⟨?_, ?_, ?_⟩
  · intro kc r r' he hne
    simp only [row_key]
    rw [if_neg hne, if_neg (by rw [← he]; exact hne)]
    exact he
  · intro kc r h
    simp only [row_key]
    rw [if_pos h]
  · intro kc r r' h hp hn
    have h2 : pyGet r' kc = "" := by
      simp only [pyGet] at h ⊢
      rw [← pyGetD_perm hp hn]
      exact h
    simp only [row_key]
    rw [if_pos h, if_pos h2]
    exact jsonDumps_eq_of_perm hp hn

/-- Witness for C7: a shared non-empty key value with differing other columns,
and a permuted empty-keyed row. -/
theorem row_key_determinism_witness :
    (pyGet [("K", "1"), ("X", "a")] "K" = pyGet [("K", "1"), ("X", "b")] "K"
      ∧ pyGet [("K", "1"), ("X", "a")] "K" ≠ ""
      ∧ row_key "K" [("K", "1"), ("X", "a")] = row_key "K" [("K", "1"), ("X", "b")])
    ∧ (pyGet [("A", "x"), ("B", "y")] "K" = ""
      ∧ List.Perm ([("A", "x"), ("B", "y")] : Row) [("B", "y"), ("A", "x")]
      ∧ WFRow [("A", "x"), ("B", "y")]
      ∧ row_key "K" [("A", "x"), ("B", "y")]
          = row_key "K" [("B", "y"), ("A", "x")]) :=
  ⟨⟨by decide, by decide,
    row_key_determinism.1 "K" _ _ (by decide) (by decide)⟩,
   ⟨by decide, by decide, by decide,
    row_key_determinism.2.2 "K" _ _ (by decide) (by decide) (by decide)⟩⟩

/-! ### `buildMap` key order and `list.index` -/

theorem containsKey_eq_keyMem {α : Type} (k : String) (m : List (String × α)) :
    containsKey k m = keyMem k (m.map Prod.fst) := by
  induction m with
  | nil => rfl
  | cons q rest ih =>
    simp only [containsKey, keyMem] at ih ⊢
    simp only [List.map_cons, List.any_cons]
    rw [ih]

theorem keyMem_append (x : String) (a b : List String) :
    keyMem x (a ++ b) = (keyMem x a || keyMem x b) := by
  simp [keyMem, List.any_append]

theorem canonicalize_row_keys (r : Row) (cols : List String) :
    (canonicalize_row r cols).map Prod.fst = r.map Prod.fst := by
  simp only [canonicalize_row, List.map_map]
  exact List.map_congr_left fun a _ => rfl

theorem pyDictEq_refl (a : Row) : pyDictEq a a = true := by
  simp [pyDictEq]

theorem pyDictEq_eq {a b : Row} (h : pyDictEq a b = true) :
    sortByKey a = sortByKey b := by
  simpa [pyDictEq] using h

theorem perm_of_pyDictEq {a b : Row} (h : pyDictEq a b = true) :
    List.Perm a b :=
  (sortByKey_perm a).symm.trans (pyDictEq_eq h ▸ sortByKey_perm b)

theorem row_key_eq_of_pyDictEq {kc : String} {a b : Row}
    (h : pyDictEq a b = true) (hn : WFRow a) :
    row_key kc a = row_key kc b :=
  row_key_perm (perm_of_pyDictEq h) hn

theorem pyIndex_some_of_mem {x : Row} {l : List Row} (h : x ∈ l) :
    ∃ i, pyIndex x l = some i
      ∧ ∃ hi : i < l.length, pyDictEq (l.get ⟨i, hi⟩) x = true := by
  induction l with
  | nil => cases h
  | cons y ys ih =>
    by_cases hy : pyDictEq y x = true
    · exact ⟨0, by simp [pyIndex, hy], Nat.succ_pos _, hy⟩
    · rcases List.mem_cons.mp h with rfl | h2
      · exact absurd (pyDictEq_refl x) hy
      · obtain ⟨i, hidx, hi, heq⟩ := ih h2
        refine ⟨i + 1, ?_, Nat.succ_lt_succ hi, heq⟩
        simp [pyIndex, hy, hidx]

theorem pyIndex_self {kc : String} : ∀ {l : List Row},
    (∀ r ∈ l, WFRow r) → ((l.map (row_key kc)).Nodup) →
    ∀ (i : Nat) (hi : i < l.length), pyIndex (l.get ⟨i, hi⟩) l = some i := by
  intro l
  induction l with
  | nil => intro _ _ i hi; exact absurd hi (Nat.not_lt_zero i)
  | cons c cs ih =>
    intro hwf hnd i hi
    cases i with
    | zero => simp [pyIndex, pyDictEq_refl]
    | succ j =>
      have hj : j < cs.length := Nat.lt_of_succ_lt_succ hi
      have hne : pyDictEq c (cs.get ⟨j, hj⟩) = false := by
        cases hv : pyDictEq c (cs.get ⟨j, hj⟩) with
        | false => rfl
        | true =>
          exfalso
          have hkey : row_key kc c = row_key kc (cs.get ⟨j, hj⟩) :=
            row_key_eq_of_pyDictEq hv (hwf c (List.mem_cons_self c cs))
          simp only [List.map_cons, List.nodup_cons] at hnd
          apply hnd.1
          rw [hkey]
          exact List.mem_map.mpr ⟨cs.get ⟨j, hj⟩, List.get_mem cs j hj, rfl⟩
      have htail := ih (fun r hr => hwf r (List.mem_cons_of_mem _ hr))
        (by simp only [List.map_cons, List.nodup_cons] at hnd; exact hnd.2) j hj
      show pyIndex (cs.get ⟨j, hj⟩) (c :: cs) = some (j + 1)
      have hne2 : pyDictEq c cs[j] = false := hne
      simp only [pyIndex]
      rw [if_neg (by simp [hne2]), htail]
      rfl

theorem dictInsert_append_of_not_contains {α : Type} {k : String} {v : α}
    {m : List (String × α)} (h : containsKey k m = false) :
    dictInsert k v m = m ++ [(k, v)] := by
  induction m with
  | nil => rfl
  | cons q rest ih =>
    simp only [containsKey, List.any_cons, Bool.or_eq_false_iff] at h
    simp only [dictInsert, h.1, Bool.false_eq_true, if_false, List.cons_append]
    rw [ih (by simpa [containsKey] using h.2)]

theorem filter_filter_of_imp {P Q : String → Bool} : ∀ {D : List String},
    (∀ x ∈ D, P x = true → Q x = true) →
    (D.filter Q).filter P = D.filter P := by
  intro D
  induction D with
  | nil => intro _; rfl
  | cons c D ih =>
    intro h
    by_cases hq : Q c = true
    · rw [List.filter_cons_of_pos hq, List.filter_cons, List.filter_cons,
        ih (fun x hx => h x (List.mem_cons_of_mem _ hx))]
    · have hp : P c = false := by
        cases hv : P c with
        | false => rfl
        | true => exact absurd (h c (List.mem_cons_self _ _) hv) hq
      rw [List.filter_cons_of_neg (by simp [hq]),
        List.filter_cons_of_neg (by simp [hp]),
        ih (fun x hx => h x (List.mem_cons_of_mem _ hx))]

theorem filter_and_split {A B : String → Bool} : ∀ (D : List String),
    D.filter (fun x => A x && B x) = (D.filter A).filter B := by
  intro D
  induction D with
  | nil => rfl
  | cons c D ih =>
    by_cases ha : A c = true
    · by_cases hb : B c = true
      · rw [List.filter_cons_of_pos (by simp [ha, hb]),
          List.filter_cons_of_pos ha, List.filter_cons_of_pos hb, ih]
      · rw [List.filter_cons_of_neg (by simp [hb]),
          List.filter_cons_of_pos ha, List.filter_cons_of_neg (by simp [hb]), ih]
    · rw [List.filter_cons_of_neg (by simp [ha]),
        List.filter_cons_of_neg (by simp [ha]), ih]

theorem foldl_dictInsert_keys (kc : String) : ∀ (rows : List Row)
    (m : List (String × Row)),
    ((rows.foldl (fun m r => dictInsert (row_key kc r) r m) m).map Prod.fst)
      = m.map Prod.fst
        ++ (dedupFirst (rows.map (row_key kc))).filter
            (fun x => !keyMem x (m.map Prod.fst)) := by
  intro rows
  induction rows with
  | nil =>
    intro m
    simp [dedupFirst]
  | cons r rs ih =>
    intro m
    simp only [List.foldl_cons, List.map_cons, dedupFirst]
    rw [ih (dictInsert (row_key kc r) r m)]
    by_cases hc : containsKey (row_key kc r) m = true
    · rw [keys_dictInsert_of_contains r hc]
      have hkm : keyMem (row_key kc r) (m.map Prod.fst) = true := by
        rw [← containsKey_eq_keyMem]
        exact hc
      rw [List.filter_cons, if_neg (by simp [hkm])]
      rw [filter_filter_of_imp]
      intro x _ hx
      simp only [Bool.not_eq_true'] at hx ⊢
      simp only [beq_eq_false_iff_ne]
      intro he
      rw [he, hkm] at hx
      cases hx
    · have hc2 : containsKey (row_key kc r) m = false := by
        cases hv : containsKey (row_key kc r) m with
        | false => rfl
        | true => exact absurd hv hc
      rw [keys_dictInsert_of_not_contains r hc2]
      have hkm : keyMem (row_key kc r) (m.map Prod.fst) = false := by
        rw [← containsKey_eq_keyMem]
        exact hc2
      rw [List.filter_cons, if_pos (by simp [hkm])]
      have hfun : (fun x => !keyMem x (m.map Prod.fst ++ [row_key kc r]))
          = fun x => !(x == row_key kc r) && !keyMem x (m.map Prod.fst) := by
        funext x
        rw [keyMem_append]
        by_cases hxk : x = row_key kc r
        · subst hxk
          simp [keyMem]
        · simp only [show (x == row_key kc r) = false from by simpa using hxk]
          have : keyMem x [row_key kc r] = false := by
            simp only [keyMem, List.any_cons, List.any_nil, Bool.or_false,
              beq_eq_false_iff_ne]
            exact fun he => hxk he.symm
          simp [this]
      rw [hfun, filter_and_split]
      rw [List.append_assoc]
      rfl

theorem buildMap_keys (kc : String) (rows : List Row) :
    (buildMap kc rows).map Prod.fst = dedupFirst (rows.map (row_key kc)) := by
  have h := foldl_dictInsert_keys kc rows []
  simpa [buildMap, keyMem] using h

/-- C8: the diff output follows the iteration order of the new row sequence —
the keys of `new_entries` and of `updated_entries` each form a sublist of the
new rows' identity keys listed in order of first occurrence. -/
theorem detect_changes_order (kc : String) (old_rows new_rows : List Row)
    (hwf : ∀ r ∈ new_rows, WFRow r) :
    List.Sublist
      ((detect_changes old_rows new_rows kc).1.map
        (fun r => row_key kc (canonicalize_row r)))
      (dedupFirst (new_rows.map (fun r => row_key kc (canonicalize_row r))))
    ∧ List.Sublist
      ((detect_changes old_rows new_rows kc).2.map (fun t => t.1))
      (dedupFirst (new_rows.map (fun r => row_key kc (canonicalize_row r)))) := by
  have hdedup : dedupFirst (new_rows.map (fun r => row_key kc (canonicalize_row r)))
      = (buildMap kc (new_rows.map (fun r => canonicalize_row r))).map Prod.fst := by
    rw [buildMap_keys, List.map_map]
    rfl
  constructor
  · simp only [detect_changes]
    rw [hdedup, List.map_map]
    set nn := new_rows.map (fun r => canonicalize_row r) with hnn
    set om := buildMap kc (old_rows.map (fun r => canonicalize_row r)) with hom
    have hpt : ∀ p ∈ (buildMap kc nn).filter (fun p => !containsKey p.1 om),
        ((fun r => row_key kc (canonicalize_row r)) ∘
          (fun p : String × Row =>
            new_rows.getD ((pyIndex p.2 nn).getD 0) [])) p = p.1 := by
      intro p hp
      obtain ⟨hpk, hpmem⟩ := buildMap_mem (List.mem_of_mem_filter hp)
      obtain ⟨i, hidx, hi, heq⟩ := pyIndex_some_of_mem hpmem
      have hilen : i < new_rows.length := by
        rw [hnn] at hi
        simpa using hi
      show row_key kc
        (canonicalize_row (new_rows.getD ((pyIndex p.2 nn).getD 0) [])) = p.1
      rw [hidx, show (some i).getD 0 = i from rfl,
        List.getD_eq_getElem new_rows [] hilen]
      have hget : nn.get ⟨i, hi⟩ = canonicalize_row new_rows[i] := by
        show (List.map (fun r => canonicalize_row r) new_rows).get ⟨i, hi⟩
            = canonicalize_row new_rows[i]
        simp
      rw [hpk]
      refine row_key_eq_of_pyDictEq (hget ▸ heq) ?_
      show ((canonicalize_row new_rows[i]).map Prod.fst).Nodup
      rw [canonicalize_row_keys]
      exact hwf _ (List.getElem_mem hilen)
    rw [List.map_congr_left hpt]
    exact (List.filter_sublist _).map _
  · simp only [detect_changes]
    rw [hdedup, List.map_map]
    rw [List.map_congr_left (fun (p : String × Row) _ => rfl)]
    exact (List.filter_sublist _).map _

/-- Witness for C8 at a concrete old/new pair with one update and one new
row. -/
theorem detect_changes_order_witness :
    (∀ r ∈ [[("Modification Number", "1"), ("Amount", "6")],
            [("Modification Number", "2")]], WFRow r)
    ∧ (List.Sublist
        ((detect_changes [[("Modification Number", "1"), ("Amount", "5")]]
            [[("Modification Number", "1"), ("Amount", "6")],
             [("Modification Number", "2")]] "Modification Number").1.map
          (fun r => row_key "Modification Number" (canonicalize_row r)))
        (dedupFirst (([[("Modification Number", "1"), ("Amount", "6")],
             [("Modification Number", "2")]] : List Row).map
          (fun r => row_key "Modification Number" (canonicalize_row r))))
      ∧ List.Sublist
        ((detect_changes [[("Modification Number", "1"), ("Amount", "5")]]
            [[("Modification Number", "1"), ("Amount", "6")],
             [("Modification Number", "2")]] "Modification Number").2.map
          (fun t => t.1))
        (dedupFirst (([[("Modification Number", "1"), ("Amount", "6")],
             [("Modification Number", "2")]] : List Row).map
          (fun r => row_key "Modification Number" (canonicalize_row r))))) :=
  ⟨by decide,
   detect_changes_order "Modification Number"
     [[("Modification Number", "1"), ("Amount", "5")]]
     [[("Modification Number", "1"), ("Amount", "6")],
      [("Modification Number", "2")]] (by decide)⟩

/-! ### Bootstrap diff against an empty snapshot -/

theorem foldl_dictInsert_of_nodup (kc : String) : ∀ (l : List Row)
    (m : List (String × Row)),
    ((m.map Prod.fst ++ l.map (row_key kc)).Nodup) →
    l.foldl (fun m r => dictInsert (row_key kc r) r m) m
      = m ++ l.map (fun c => (row_key kc c, c)) := by
  intro l
  induction l with
  | nil =>
    intro m _
    simp
  | cons c cs ih =>
    intro m hnd
    simp only [List.foldl_cons]
    have hkm : containsKey (row_key kc c) m = false := by
      cases hv : containsKey (row_key kc c) m with
      | false => rfl
      | true =>
        exfalso
        rw [containsKey_eq_keyMem] at hv
        have h1 : row_key kc c ∈ m.map Prod.fst := keyMem_eq_true_iff.mp hv
        have h2 : row_key kc c ∈ (c :: cs).map (row_key kc) :=
          List.mem_map.mpr ⟨c, List.mem_cons_self _ _, rfl⟩
        exact (List.disjoint_of_nodup_append hnd) h1 h2
    rw [dictInsert_append_of_not_contains hkm,
      ih (m ++ [(row_key kc c, c)]) (by
        rw [List.map_append, List.append_assoc]
        simpa using hnd),
      List.append_assoc]
    rfl

/-- C1 amended: diffing rows whose identity keys are pairwise distinct against
an empty snapshot returns exactly `(new_rows, [])`; with duplicate keys the
later row silently wins, so only one entry per key is emitted (see the
counterexample). -/
theorem bootstrap_returns_new_rows (kc : String) (new_rows : List Row)
    (hwf : ∀ r ∈ new_rows, WFRow r)
    (hkeys : (new_rows.map (fun r => row_key kc (canonicalize_row r))).Nodup) :
    detect_changes [] new_rows kc = (new_rows, []) := by
  have hknn : ((new_rows.map (fun r => canonicalize_row r)).map
      (row_key kc)).Nodup := by
    rw [List.map_map]
    exact hkeys
  have hwfn : ∀ r ∈ new_rows.map (fun r => canonicalize_row r), WFRow r := by
    intro r hr
    rcases List.mem_map.mp hr with ⟨a, ha, rfl⟩
    show ((canonicalize_row a).map Prod.fst).Nodup
    rw [canonicalize_row_keys]
    exact hwf a ha
  have hbm : buildMap kc (new_rows.map (fun r => canonicalize_row r))
      = (new_rows.map (fun r => canonicalize_row r)).map
          (fun c => (row_key kc c, c)) := by
    have h := foldl_dictInsert_of_nodup kc
      (new_rows.map (fun r => canonicalize_row r)) [] (by simpa using hknn)
    simpa [buildMap] using h
  have hfil1 : (buildMap kc (new_rows.map (fun r => canonicalize_row r))).filter
      (fun p => !containsKey p.1 ([] : List (String × Row)))
      = buildMap kc (new_rows.map (fun r => canonicalize_row r)) :=
    List.filter_eq_self.mpr (fun a _ => rfl)
  have hfil2 : (buildMap kc (new_rows.map (fun r => canonicalize_row r))).filter
      (fun p => containsKey p.1 ([] : List (String × Row))
        && !pyDictEq p.2 (dictGet p.1 ([] : List (String × Row)) [])) = [] :=
    List.filter_eq_nil_iff.mpr (fun a _ => by simp [containsKey])
  simp only [detect_changes, List.map_nil]
  rw [show buildMap kc [] = [] from rfl, hfil1, hfil2, List.map_nil, hbm,
    List.map_map]
  refine Prod.ext ?_ rfl
  show List.map _ (new_rows.map (fun r => canonicalize_row r)) = new_rows
  apply List.ext_getElem
  · simp
  · intro n h1 h2
    simp only [List.getElem_map]
    have hn : n < (new_rows.map (fun r => canonicalize_row r)).length := by
      simpa using h2
    show new_rows.getD
        ((pyIndex (canonicalize_row new_rows[n])
          (new_rows.map (fun r => canonicalize_row r))).getD 0) []
      = new_rows[n]
    have hx : canonicalize_row new_rows[n]
        = (new_rows.map (fun r => canonicalize_row r)).get ⟨n, hn⟩ := by
      simp
    rw [hx, pyIndex_self hwfn hknn n hn,
      show (some n).getD 0 = n from rfl]
    exact List.getD_eq_getElem new_rows [] h2

/-- Witness for C1 at two rows with distinct modification numbers. -/
theorem bootstrap_returns_new_rows_witness :
    (∀ r ∈ [[("Modification Number", "1")], [("Modification Number", "2")]],
        WFRow r)
    ∧ (([[("Modification Number", "1")],
         [("Modification Number", "2")]] : List Row).map
        (fun r => row_key "Modification Number" (canonicalize_row r))).Nodup
    ∧ detect_changes [] [[("Modification Number", "1")],
        [("Modification Number", "2")]] "Modification Number"
      = ([[("Modification Number", "1")], [("Modification Number", "2")]], []) :=
  ⟨by decide, by decide,
   bootstrap_returns_new_rows "Modification Number"
     [[("Modification Number", "1")], [("Modification Number", "2")]]
     (by decide) (by decide)⟩
